import Mathlib

/-!
Verification development for the LDL (Learning Domain Language) VS Code
extension.  The definitions below are a shallow embedding of the
TypeScript sources: `parser.ts` (`LDLParser`), the reference provider
(`LDLReferenceProvider`), the per-file parser caches of the definition,
reference and workspace-symbol providers, and the completion provider
(`LDLCompletionProvider.applyIntelligentRanking`,
`provideVersionCompletions`).  Strings are modelled as lists of
characters; JavaScript regular-expression scans are modelled by explicit
scanners that reproduce the exec-loop semantics (leftmost match at or
after `lastIndex`, greedy subpatterns with backtracking) of the concrete
patterns appearing in the source.
-/

namespace LDL

/-- JS whitespace class (the `\s` character class and `trim`),
restricted to the characters that can occur in the embedded texts. -/
def isSpaceChar (c : Char) : Bool :=
  c == ' ' || c == '\t' || c == '\n' || c == '\r' || c == '\x0b' || c == '\x0c'

/-- JS word-character class `\w` = `[A-Za-z0-9_]`. -/
def isWordChar (c : Char) : Bool :=
  (c.isAlpha || c.isDigit) || c == '_'

def isQuoteChar (c : Char) : Bool :=
  c == '"' || c == '\''

/-- Drop a literal string prefix from a character list, or fail. -/
def dropLit : List Char → List Char → Option (List Char)
  | s, [] => some s
  | c :: s, l :: ls => if c = l then dropLit s ls else none
  | [], _ :: _ => none

def dropLitS (s : List Char) (lit : String) : Option (List Char) :=
  dropLit s lit.data

/-- Length of the maximal run of characters satisfying `p`. -/
def runLen (p : Char → Bool) (s : List Char) : Nat :=
  (s.takeWhile p).length

/-- JS `String.prototype.trim`. -/
def jsTrim (s : List Char) : List Char :=
  ((s.dropWhile isSpaceChar).reverse.dropWhile isSpaceChar).reverse

/-- All indices `k` at which `sub` occurs in `s` (ascending). -/
def subOccurrences (s sub : List Char) : List Nat :=
  (List.range (s.length + 1)).filter (fun k => sub.isPrefixOf (s.drop k))

/-- JS `String.prototype.lastIndexOf` for a substring. -/
def lastIndexOfSub (s sub : List Char) : Option Nat :=
  (subOccurrences s sub).getLast?

/-- First index at which `sub` occurs in `s` (JS `indexOf`). -/
def firstIndexOfSub (s sub : List Char) : Option Nat :=
  (subOccurrences s sub).head?

/-- The character at index `i`, if any (JS `text[i]`). -/
def charAt (l : List Char) (i : Nat) : Option Char :=
  (l.drop i).head?

/-- Whether `sub` occurs in `s` (JS `String.prototype.includes`). -/
def containsSub (s sub : List Char) : Bool :=
  (firstIndexOfSub s sub).isSome

/-- Split on newline characters, JS `split('\n')` (always nonempty). -/
def splitLines : List Char → List (List Char)
  | [] => [[]]
  | c :: rest =>
    if c = '\n' then [] :: splitLines rest
    else
      match splitLines rest with
      | l :: ls => (c :: l) :: ls
      | [] => [[c]]

/-- Try candidates in order, returning the first success
(backtracking search used by the greedy regex subpatterns). -/
def pickFirst {α : Type} (f : Nat → Option α) : List Nat → Option α
  | [] => none
  | k :: ks =>
    match f k with
    | some r => some r
    | none => pickFirst f ks

/-- Append `x` unless already present (the duplicate check of
`findReferencesInDocument` and the JS `Set` used for version values). -/
def dedupAppend {α : Type} [DecidableEq α] (acc : List α) (x : α) : List α :=
  if x ∈ acc then acc else acc ++ [x]

/-- A zero-based (line, character) position, `vscode.Position`. -/
structure Pos where
  line : Nat
  character : Nat
deriving DecidableEq, Repr

/-- Model of `document.positionAt(offset)`: line/column of a byte offset. -/
def positionAt (text : List Char) (off : Nat) : Pos :=
  let before := text.take off
  { line := before.count '\n',
    character := (before.reverse.takeWhile (fun c => c != '\n')).length }

/-- The `type` field of `LDLSymbol` in `parser.ts`. -/
inductive SymType
  | function
  | pipeline
  | type_alias
  | macroDef
  | constant
  | classDef
  | method
deriving DecidableEq, Repr

/-- The `LDLSymbol` interface of `parser.ts`; optional fields are
`Option`s (absent = `none`). -/
structure LDLSymbol where
  name : String
  position : Pos
  type : SymType
  version : Option String := none
  value : Option String := none
  aliasType : Option String := none
  className : Option String := none
  parentClass : Option String := none
  isStatic : Option Bool := none
  labels : Option (List String) := none
  documentation : Option String := none
deriving DecidableEq, Repr

/-- Insertion-ordered map (JS `Map`) from keys to buckets; `set`-if-absent
followed by `push` appends to an existing bucket or adds a new key at
the end. -/
def bucketInsert {α : Type} : List (String × List α) → String → α → List (String × List α)
  | [], k, v => [(k, [v])]
  | (k', vs) :: rest, k, v =>
    if k' = k then (k', vs ++ [v]) :: rest
    else (k', vs) :: bucketInsert rest k v

def bucketLookup {α : Type} : List (String × List α) → String → Option (List α)
  | [], _ => none
  | (k', vs) :: rest, k => if k' = k then some vs else bucketLookup rest k

/-- The mutable state of an `LDLParser` instance: the `symbols` map and
the `labelIndex` map, both insertion-ordered. -/
structure ParserState where
  symbols : List (String × List LDLSymbol) := []
  labelIndex : List (String × List LDLSymbol) := []
deriving DecidableEq, Repr

def emptyParser : ParserState := {}

/-! ### Regex scanners

Each JS regex used by `parser.ts` is modelled by a `tryAt` function that
attempts a match at one position (returning the consumed length and the
captures) plus a generic exec-loop that advances `lastIndex` past each
match, or by one position on failure. -/

/-- Generic exec loop: collect `(index, length, captures)` of successive
matches, advancing past each match (JS `regex.exec` with the `g` flag). -/
def execScan {α : Type} (tryAt : Nat → Option (Nat × α)) : Nat → Nat → List (Nat × Nat × α)
  | 0, _ => []
  | fuel + 1, i =>
    match tryAt i with
    | some (len, a) => (i, len, a) :: execScan tryAt fuel (i + max len 1)
    | none => execScan tryAt fuel (i + 1)

/-- Tail of the optional version subpattern
`version:\s*"([^"]+)"[^)]*\)` tried at offset `k` of the text following
the opening parenthesis. -/
def matchVersionTail (body : List Char) (k : Nat) : Option (Nat × String) :=
  let t := body.drop (k + 8)
  let sp := runLen isSpaceChar t
  match t.drop sp with
  | '"' :: t2 =>
    let content := t2.takeWhile (fun c => c != '"')
    if content.isEmpty then none
    else
      match t2.drop content.length with
      | '"' :: t4 =>
        let post := t4.takeWhile (fun c => c != ')')
        if post.length < t4.length then
          some (k + 8 + sp + 1 + content.length + 1 + post.length + 1, String.mk content)
        else none
      | _ => none
  | _ => none

/-- The optional version group `(?:\s*\([^)]*version:\s*"([^"]+)"[^)]*\))?`
of the function/method patterns: returns the consumed length and the
captured version, or `(0, none)` when the group does not participate.
The greedy `[^)]*` is modelled by trying occurrences of `version:`
from the rightmost one leftwards. -/
def versionGroup (s : List Char) : Option (Nat × String) :=
  let sp := runLen isSpaceChar s
  match s.drop sp with
  | '(' :: body =>
    let ks := ((subOccurrences body ("version:".data)).filter
        (fun k => (body.take k).all (fun c => c != ')'))).reverse
    match pickFirst (fun k => matchVersionTail body k) ks with
    | some (len, v) => some (sp + 1 + len, v)
    | none => none
  | _ => none

/-- Model of `class\s+(\w+)(?:\s+extends\s+(\w+))?` tried at one position:
returns length, class name and optional parent name. -/
def tryClassAt (text : List Char) (i : Nat) : Option (Nat × String × Option String) :=
  let s := text.drop i
  match dropLitS s "class" with
  | none => none
  | some s1 =>
    let sp := runLen isSpaceChar s1
    if sp = 0 then none
    else
      let name := (s1.drop sp).takeWhile isWordChar
      if name.isEmpty then none
      else
        let s2 := s1.drop (sp + name.length)
        let ext :=
          let sp2 := runLen isSpaceChar s2
          if sp2 = 0 then none
          else
            match dropLitS (s2.drop sp2) "extends" with
            | none => none
            | some s3 =>
              let sp3 := runLen isSpaceChar s3
              if sp3 = 0 then none
              else
                let pname := (s3.drop sp3).takeWhile isWordChar
                if pname.isEmpty then none
                else some (sp2 + 7 + sp3 + pname.length, String.mk pname)
        match ext with
        | some (elen, p) => some (5 + sp + name.length + elen, String.mk name, some p)
        | none => some (5 + sp + name.length, String.mk name, none)

def classMatches (text : List Char) : List (Nat × Nat × String × Option String) :=
  execScan (tryClassAt text) (text.length + 1) 0

/-- Core of the `fn\s+(\w+)(?:...version...)?` patterns, tried on the
suffix `s`; returns length, name and optional version. -/
def fnCore (s : List Char) : Option (Nat × String × Option String) :=
  match dropLitS s "fn" with
  | none => none
  | some s2 =>
    let sp2 := runLen isSpaceChar s2
    if sp2 = 0 then none
    else
      let name := (s2.drop sp2).takeWhile isWordChar
      if name.isEmpty then none
      else
        let s3 := s2.drop (sp2 + name.length)
        match versionGroup s3 with
        | some (vlen, v) => some (2 + sp2 + name.length + vlen, String.mk name, some v)
        | none => some (2 + sp2 + name.length, String.mk name, none)

/-- Model of `(static\s+)?fn\s+(\w+)(?:...version...)?` (the class-method pattern),
with the optional `static` group retried without on failure. -/
def tryMethodAt (body : List Char) (i : Nat) : Option (Nat × Bool × String × Option String) :=
  let s := body.drop i
  let plain : Option (Nat × Bool × String × Option String) :=
    match fnCore s with
    | some (len, n, v) => some (len, false, n, v)
    | none => none
  match dropLitS s "static" with
  | some s1 =>
    let sp := runLen isSpaceChar s1
    if sp = 0 then plain
    else
      match fnCore (s1.drop sp) with
      | some (len, n, v) => some (6 + sp + len, true, n, v)
      | none => plain
  | none => plain

def methodMatches (body : List Char) : List (Nat × Nat × Bool × String × Option String) :=
  execScan (tryMethodAt body) (body.length + 1) 0

/-- Model of `(?:^|\n)\s*(fn\s+(\w+)(?:...version...)?)` (the top-level function
pattern, multiline): returns length, offset of `fn` within the match,
name and optional version. -/
def tryFnAt (text : List Char) (i : Nat) : Option (Nat × Nat × String × Option String) :=
  let tryFrom : Nat → Option (Nat × Nat × String × Option String) := fun pre =>
    let s := text.drop (i + pre)
    let sp := runLen isSpaceChar s
    match fnCore (s.drop sp) with
    | some (len, n, v) => some (pre + sp + len, pre + sp, n, v)
    | none => none
  let lineStart : Bool := i = 0 || charAt text (i-1) == some '\n'
  let atNl : Bool := charAt text i == some '\n'
  match (if lineStart then tryFrom 0 else none) with
  | some r => some r
  | none => if atNl then tryFrom 1 else none

def fnMatches (text : List Char) : List (Nat × Nat × Nat × String × Option String) :=
  execScan (tryFnAt text) (text.length + 1) 0

/-- Model of `pipeline\s+(\w+)`. -/
def tryPipelineAt (text : List Char) (i : Nat) : Option (Nat × String) :=
  let s := text.drop i
  match dropLitS s "pipeline" with
  | none => none
  | some s1 =>
    let sp := runLen isSpaceChar s1
    if sp = 0 then none
    else
      let name := (s1.drop sp).takeWhile isWordChar
      if name.isEmpty then none
      else some (8 + sp + name.length, String.mk name)

def pipelineMatches (text : List Char) : List (Nat × Nat × String) :=
  execScan (tryPipelineAt text) (text.length + 1) 0

/-- Model of `using\s+(\w+)\s*=\s*(\w+)`. -/
def tryAliasAt (text : List Char) (i : Nat) : Option (Nat × String × String) :=
  let s := text.drop i
  match dropLitS s "using" with
  | none => none
  | some s1 =>
    let sp := runLen isSpaceChar s1
    if sp = 0 then none
    else
      let name := (s1.drop sp).takeWhile isWordChar
      if name.isEmpty then none
      else
        let s2 := s1.drop (sp + name.length)
        let sp2 := runLen isSpaceChar s2
        match s2.drop sp2 with
        | '=' :: s3 =>
          let sp3 := runLen isSpaceChar s3
          let target := (s3.drop sp3).takeWhile isWordChar
          if target.isEmpty then none
          else some (5 + sp + name.length + sp2 + 1 + sp3 + target.length,
                     String.mk name, String.mk target)
        | _ => none

def aliasMatches (text : List Char) : List (Nat × Nat × String × String) :=
  execScan (tryAliasAt text) (text.length + 1) 0

/-- After a name, match `\s+([^\r\n]+)` (when `minOne` is true) or
`\s*([^\r\n]+)`: greedy whitespace with backtracking so that the value
is nonempty and starts with a non-newline character. -/
def valueAfter (s : List Char) (minOne : Bool) : Option (Nat × String) :=
  let ws := runLen isSpaceChar s
  let lo := if minOne then 1 else 0
  let js := ((List.range (ws + 1)).filter (fun j => lo ≤ j)).reverse
  pickFirst (fun j =>
    match s.drop j with
    | c :: _ =>
      if c != '\r' && c != '\n' then
        let v := (s.drop j).takeWhile (fun c => c != '\r' && c != '\n')
        some (j + v.length, String.mk v)
      else none
    | [] => none) js

/-- Model of `macro\s+(\w+)\s+([^\r\n]+)`. -/
def tryMacroAt (text : List Char) (i : Nat) : Option (Nat × String × String) :=
  let s := text.drop i
  match dropLitS s "macro" with
  | none => none
  | some s1 =>
    let sp := runLen isSpaceChar s1
    if sp = 0 then none
    else
      let name := (s1.drop sp).takeWhile isWordChar
      if name.isEmpty then none
      else
        match valueAfter (s1.drop (sp + name.length)) true with
        | some (vlen, v) => some (5 + sp + name.length + vlen, String.mk name, v)
        | none => none

def macroDefMatches (text : List Char) : List (Nat × Nat × String × String) :=
  execScan (tryMacroAt text) (text.length + 1) 0

/-- Model of `const\s+(\w+)\s*=\s*([^\r\n]+)`. -/
def tryConstAt (text : List Char) (i : Nat) : Option (Nat × String × String) :=
  let s := text.drop i
  match dropLitS s "const" with
  | none => none
  | some s1 =>
    let sp := runLen isSpaceChar s1
    if sp = 0 then none
    else
      let name := (s1.drop sp).takeWhile isWordChar
      if name.isEmpty then none
      else
        let s2 := s1.drop (sp + name.length)
        let sp2 := runLen isSpaceChar s2
        match s2.drop sp2 with
        | '=' :: s3 =>
          match valueAfter s3 false with
          | some (vlen, v) =>
            some (5 + sp + name.length + sp2 + 1 + vlen, String.mk name, v)
          | none => none
        | _ => none

def constMatches (text : List Char) : List (Nat × Nat × String × String) :=
  execScan (tryConstAt text) (text.length + 1) 0

/-! ### Label and documentation capture
(`LDLParser.parseLabelsAndDocumentation`) -/

/-- Full-line match of `^@label\(["']([^"']+)["']\)$` on a trimmed line,
returning the captured label value. -/
def labelContent (t : List Char) : Option String :=
  match dropLitS t "@label(" with
  | none => none
  | some s1 =>
    match s1 with
    | q1 :: s2 =>
      if isQuoteChar q1 then
        let content := s2.takeWhile (fun c => ¬ isQuoteChar c)
        if content.isEmpty then none
        else
          match s2.drop content.length with
          | [q2, c2] => if isQuoteChar q2 && c2 == ')' then some (String.mk content) else none
          | _ => none
      else none
    | [] => none

/-- Whether a trimmed line stops the backward scan: non-blank and not
starting with `@` or `//`. -/
def stopsScan (t : List Char) : Bool :=
  ¬ t.isEmpty && ¬ ("@".data.isPrefixOf t) && ¬ ("//".data.isPrefixOf t)

/-- The backward scan over the lines preceding a declaration, given the
lines in reverse order: labels are prepended (preserving source order),
each doc-comment line overwrites `doc`, and the first stopping line ends
the scan. -/
def scanBack : List (List Char) → List String → Option String → List String × Option String
  | [], labels, doc => (labels, doc)
  | l :: rest, labels, doc =>
    let line := jsTrim l
    match labelContent line with
    | some v => scanBack rest (v :: labels) doc
    | none =>
      if "///".data.isPrefixOf line then
        scanBack rest labels (some (String.mk (jsTrim (line.drop 3))))
      else if stopsScan line then (labels, doc)
      else scanBack rest labels doc

/-- Model of `parseLabelsAndDocumentation(text, startIndex)`. -/
def parseLabelsAndDocumentation (text : List Char) (startIndex : Nat) :
    List String × Option String :=
  scanBack ((splitLines (text.take startIndex)).reverse) [] none

/-! ### Brace matching (`LDLParser.findClassEndIndex`) -/

/-- The scanner state of `findClassEndIndex`. -/
structure ScanState where
  brace : Int
  inStr : Bool
  strChar : Char
deriving DecidableEq, Repr

/-- One step of the brace scanner on character `c` with previous
character `prev`; the returned flag is true when the loop returns
(the closing brace was found). -/
def classEndStep (st : ScanState) (prev c : Char) : ScanState × Bool :=
  if ¬ st.inStr then
    if c = '"' ∨ c = '\'' then ({ st with inStr := true, strChar := c }, false)
    else if c = '{' then ({ st with brace := st.brace + 1 }, false)
    else if c = '}' then
      let b := st.brace - 1
      ({ st with brace := b }, b = 0)
    else (st, false)
  else
    if c = st.strChar ∧ prev ≠ '\\' then ({ st with inStr := false }, false)
    else (st, false)

/-- The scanning loop, returning `some (i + 1)` at the matching closing
brace and `none` when the text ends first. -/
def classEndLoop : List Char → Nat → ScanState → Char → Option Nat
  | [], _, _, _ => none
  | c :: cs, i, st, prev =>
    let (st', ret) := classEndStep st prev c
    if ret then some (i + 1) else classEndLoop cs (i + 1) st' c

/-- Model of `findClassEndIndex(text, startIndex)`: best effort — an unterminated
body extends to the end of the text. -/
def findClassEndIndex (text : List Char) (startIndex : Nat) : Nat :=
  (classEndLoop (text.drop startIndex) startIndex { brace := 0, inStr := false, strChar := ' ' } ' ').getD text.length

/-! ### The parser (`LDLParser.parseDocument` and its phases) -/

/-- Whether a top-level `fn` match lies inside a class body: the nearest
preceding `class ` occurs after the nearest preceding `}`
(`LDLParser.isInsideClass`). -/
def isInsideClass (text : List Char) (pos : Nat) : Bool :=
  let before := text.take pos
  match lastIndexOfSub before "class ".data, lastIndexOfSub before ['}'] with
  | some ci, some bi => bi < ci
  | some _, none => true
  | none, _ => false

/-- Append a symbol to its name bucket (`this.symbols.get(name)!.push`). -/
def pushSymbol (st : ParserState) (s : LDLSymbol) : ParserState :=
  { st with symbols := bucketInsert st.symbols s.name s }

/-- Model of `LDLParser.addToLabelIndex`. -/
def addToLabelIndex (st : ParserState) (s : LDLSymbol) : ParserState :=
  match s.labels with
  | some ls =>
    { st with labelIndex := ls.foldl (fun m lab => bucketInsert m lab s) st.labelIndex }
  | none => st

/-- Model of `LDLParser.parseClassMethods`. -/
def parseClassMethods (st : ParserState) (text : List Char) (className : String)
    (classStart : Nat) : ParserState :=
  let classEnd := findClassEndIndex text classStart
  let body := (text.drop classStart).take (classEnd - classStart)
  (methodMatches body).foldl (fun st m =>
    let (midx, _, isStat, mname, ver) := m
    let (labels, doc) := parseLabelsAndDocumentation text (classStart + midx)
    let sym : LDLSymbol :=
      { name := mname, position := positionAt text (classStart + midx),
        type := .method, className := some className, version := ver,
        isStatic := some isStat, labels := some labels, documentation := doc }
    addToLabelIndex (pushSymbol st sym) sym) st

/-- Model of `LDLParser.parseClasses` (each class also triggers
`parseClassMethods`). -/
def parseClasses (st : ParserState) (text : List Char) : ParserState :=
  (classMatches text).foldl (fun st m =>
    let (idx, _, name, parent) := m
    let (labels, doc) := parseLabelsAndDocumentation text idx
    let sym : LDLSymbol :=
      { name := name, position := positionAt text idx, type := .classDef,
        parentClass := parent, labels := some labels, documentation := doc }
    let st := addToLabelIndex (pushSymbol st sym) sym
    parseClassMethods st text name idx) st

/-- Model of `LDLParser.parseFunctions` (matches inside class bodies are skipped). -/
def parseFunctions (st : ParserState) (text : List Char) : ParserState :=
  (fnMatches text).foldl (fun st m =>
    let (idx, _, fnOff, name, ver) := m
    if isInsideClass text idx then st
    else
      let (labels, doc) := parseLabelsAndDocumentation text idx
      let sym : LDLSymbol :=
        { name := name, position := positionAt text (idx + fnOff),
          type := .function, version := ver, labels := some labels,
          documentation := doc }
      addToLabelIndex (pushSymbol st sym) sym) st

/-- Model of `LDLParser.parsePipelines`. -/
def parsePipelines (st : ParserState) (text : List Char) : ParserState :=
  (pipelineMatches text).foldl (fun st m =>
    let (idx, _, name) := m
    let (labels, doc) := parseLabelsAndDocumentation text idx
    let sym : LDLSymbol :=
      { name := name, position := positionAt text idx, type := .pipeline,
        labels := some labels, documentation := doc }
    addToLabelIndex (pushSymbol st sym) sym) st

/-- Model of `LDLParser.parseTypeAliases` (no labels, no label indexing). -/
def parseTypeAliases (st : ParserState) (text : List Char) : ParserState :=
  (aliasMatches text).foldl (fun st m =>
    let (idx, _, name, target) := m
    pushSymbol st
      { name := name, position := positionAt text idx, type := .type_alias,
        aliasType := some target }) st

/-- Model of `LDLParser.parseMacros` (no labels, no label indexing). -/
def parseMacroDefs (st : ParserState) (text : List Char) : ParserState :=
  (macroDefMatches text).foldl (fun st m =>
    let (idx, _, name, v) := m
    pushSymbol st
      { name := name, position := positionAt text idx, type := .macroDef,
        value := some (String.mk (jsTrim v.data)) }) st

/-- Model of `LDLParser.parseConstants` (no labels, no label indexing). -/
def parseConstants (st : ParserState) (text : List Char) : ParserState :=
  (constMatches text).foldl (fun st m =>
    let (idx, _, name, v) := m
    pushSymbol st
      { name := name, position := positionAt text idx, type := .constant,
        value := some (String.mk (jsTrim v.data)) }) st

/-- Model of `LDLParser.parseDocument`: clears both maps, then runs the six
construct phases in order. -/
def parseDocument (st : ParserState) (document : String) : ParserState :=
  let text := document.data
  let st := { st with symbols := [], labelIndex := [] }
  let st := parseClasses st text
  let st := parseFunctions st text
  let st := parsePipelines st text
  let st := parseTypeAliases st text
  let st := parseMacroDefs st text
  parseConstants st text

/-! ### Lookup (`findSymbol`, `findAllSymbols`) and accessors -/

/-- Model of `LDLParser.findSymbol(name, version?, className?)`. -/
def findSymbol (st : ParserState) (name : String)
    (version className : Option String) : Option LDLSymbol :=
  match bucketLookup st.symbols name with
  | none => none
  | some symbols =>
    let fallback : Option LDLSymbol :=
      match version with
      | some v => symbols.find? (fun s => s.version == some v)
      | none => symbols.head?
    match className with
    | some cn =>
      match symbols.find? (fun s => s.className == some cn) with
      | some m => some m
      | none => fallback
    | none => fallback

/-- Model of `LDLParser.findAllSymbols(name, version?, className?)`. -/
def findAllSymbols (st : ParserState) (name : String)
    (version className : Option String) : List LDLSymbol :=
  match bucketLookup st.symbols name with
  | none => []
  | some symbols =>
    let fallback : List LDLSymbol :=
      match version with
      | some v => symbols.filter (fun s => s.version == some v)
      | none => symbols
    match className with
    | some cn =>
      let classMethods := symbols.filter (fun s => s.className == some cn)
      if classMethods.isEmpty then fallback
      else
        match version with
        | some v => classMethods.filter (fun s => s.version == some v)
        | none => classMethods
    | none => fallback

/-- Model of `LDLParser.getAllSymbols`: all buckets concatenated in key insertion
order. -/
def getAllSymbols (st : ParserState) : List LDLSymbol :=
  (st.symbols.map (·.2)).flatten

/-- Model of `LDLParser.getAllLabels`: the label-index keys, sorted
(JS `Array.prototype.sort`, modelled by a stable sort under the
code-unit string order). -/
def getAllLabels (st : ParserState) : List String :=
  List.insertionSort (· ≤ ·) (st.labelIndex.map (·.1))

/-- Model of `LDLParser.findSymbolsByLabel`. -/
def findSymbolsByLabel (st : ParserState) (label : String) : List LDLSymbol :=
  (bucketLookup st.labelIndex label).getD []

/-! ### Per-file parser cache

`getParserForDocument` of `definitionProvider.ts`,
`workspaceSymbolProvider.ts` and the reference provider: one cache slot
per file, keyed by the observed modification time. -/

/-- One entry of the `parsedDocuments` map. -/
structure CacheEntry where
  parser : ParserState
  lastModified : Nat
deriving DecidableEq, Repr

/-- Model of `getParserForDocument` for a single file: return the cached parser
when `cached.lastModified >= lastModified`, otherwise parse the current
content with a fresh `LDLParser` and replace the cache entry. -/
def getParserForDocument (cache : Option CacheEntry) (lastModified : Nat)
    (content : String) : ParserState × Option CacheEntry :=
  match cache with
  | some c =>
    if lastModified ≤ c.lastModified then (c.parser, some c)
    else
      let p := parseDocument emptyParser content
      (p, some { parser := p, lastModified := lastModified })
  | none =>
    let p := parseDocument emptyParser content
    (p, some { parser := p, lastModified := lastModified })

/-! ### Reference search (`LDLReferenceProvider`) -/

/-- Model of `isInComment(line, position)`: inside a `//` or `///` line comment. -/
def isInComment (line : List Char) (pos : Nat) : Bool :=
  let c1 := match firstIndexOfSub line "//".data with
    | some ci => ci ≤ pos
    | none => false
  let c2 := match firstIndexOfSub line "///".data with
    | some ci => ci ≤ pos
    | none => false
  c1 || c2

/-- Model of `isInString(line, position)`: running single/double-quote toggles
over the characters before `pos` (quotes of one kind are inert inside a
string of the other kind). -/
def isInString (line : List Char) (pos : Nat) : Bool :=
  let st := (line.take pos).foldl (fun (q : Bool × Bool) c =>
    let (sq, dq) := q
    if c = '"' ∧ ¬ sq then (sq, ¬ dq)
    else if c = '\'' ∧ ¬ dq then (¬ sq, dq)
    else q) (false, false)
  st.1 || st.2

/-- Word boundary immediately before index `i` of `line` (for a name
made of word characters). -/
def boundaryBefore (line : List Char) (i : Nat) : Bool :=
  i = 0 || (match charAt line (i-1) with
            | some c => ¬ isWordChar c
            | none => true)

/-- Word boundary immediately after index `j` (exclusive end). -/
def boundaryAfter (line : List Char) (j : Nat) : Bool :=
  match charAt line j with
  | some c => ¬ isWordChar c
  | none => true

/-- Pattern 1, `\bname\s*\(` (call syntax). -/
def tryCallPat (line name : List Char) (i : Nat) : Option (Nat × Unit) :=
  if boundaryBefore line i ∧ name.isPrefixOf (line.drop i) then
    let j := i + name.length
    let sp := runLen isSpaceChar (line.drop j)
    match charAt line (j + sp) with
    | some '(' => some (j + sp + 1 - i, ())
    | _ => none
  else none

/-- Pattern 2, `\bname\b(?!\s*[:(=])` (bare use not followed by
`:`, `(` or `=`). -/
def tryBarePat (line name : List Char) (i : Nat) : Option (Nat × Unit) :=
  if boundaryBefore line i ∧ name.isPrefixOf (line.drop i) then
    let j := i + name.length
    if boundaryAfter line j then
      let sp := runLen isSpaceChar (line.drop j)
      match charAt line (j + sp) with
      | some c => if c = ':' ∨ c = '(' ∨ c = '=' then none else some (name.length, ())
      | none => some (name.length, ())
    else none
  else none

/-- Pattern 3, `(?::|extends)\s+name\b` (type-position use). -/
def tryTypePat (line name : List Char) (i : Nat) : Option (Nat × Unit) :=
  let afterKw : Option Nat :=
    match charAt line i with
    | some ':' => some 1
    | _ => if "extends".data.isPrefixOf (line.drop i) then some 7 else none
  match afterKw with
  | none => none
  | some klen =>
    let sp := runLen isSpaceChar (line.drop (i + klen))
    if sp = 0 then none
    else
      let m := i + klen + sp
      if name.isPrefixOf (line.drop m) ∧ boundaryAfter line (m + name.length) then
        some (klen + sp + name.length, ())
      else none

/-- Pattern 4, `\.\s*name\b` (dotted access). -/
def tryDotPat (line name : List Char) (i : Nat) : Option (Nat × Unit) :=
  match charAt line i with
  | some '.' =>
    let sp := runLen isSpaceChar (line.drop (i + 1))
    let m := i + 1 + sp
    if name.isPrefixOf (line.drop m) ∧ boundaryAfter line (m + name.length) then
      some (1 + sp + name.length, ())
    else none
  | _ => none

/-- Model of `match[0].match(new RegExp(\bname\b))`: index of the first
word-boundary occurrence of `name` inside the matched substring. -/
def firstWordIndex (sub name : List Char) : Option Nat :=
  ((List.range (sub.length + 1)).filter (fun i =>
    boundaryBefore sub i && name.isPrefixOf (sub.drop i)
      && boundaryAfter sub (i + name.length))).head?

/-- All `(index, length)` matches of one pattern over a line. -/
def patMatches (tryAt : Nat → Option (Nat × Unit)) (line : List Char) :
    List (Nat × Nat) :=
  (execScan tryAt (line.length + 1) 0).map (fun m => (m.1, m.2.1))

/-- The candidate matches of the four reference patterns over one line,
in pattern order. -/
def refCandidates (line name : List Char) : List (Nat × Nat) :=
  patMatches (tryCallPat line name) line ++ patMatches (tryBarePat line name) line
    ++ patMatches (tryTypePat line name) line ++ patMatches (tryDotPat line name) line

/-- Candidates surviving the comment and string filters (`continue`
branches of `findReferencesInDocument`). -/
def keptCandidates (line name : List Char) : List (Nat × Nat) :=
  (refCandidates line name).filter (fun m =>
    ¬ isInComment line m.1 && ¬ isInString line m.1)


/-- References contributed by one line, threaded through the
document-wide accumulator. -/
def refsInLine (line name : List Char) (lineIndex : Nat) (acc : List Pos) : List Pos :=
  (keptCandidates line name).foldl (fun acc m =>
    let (idx, len) := m
    match firstWordIndex ((line.drop idx).take len) name with
    | some off => dedupAppend acc { line := lineIndex, character := idx + off }
    | none => acc) acc

/-- Model of `findReferencesInDocument(document, symbolName)`: line-by-line scan
with the four patterns, comment/string filtering and (line, column)
deduplication. -/
def findReferencesInDocument (text : List Char) (symbolName : String) : List Pos :=
  ((splitLines text).enum.foldl (fun acc l =>
    refsInLine l.2 symbolName.data l.1 acc) [])

/-! ### Completion ranking
(`LDLCompletionProvider.applyIntelligentRanking`) -/

/-- The fields of a completion item that the ranker reads. -/
structure RankItem where
  label : String
  detail : Option String := none
deriving DecidableEq, Repr

/-- One `UsageStats` record of the usage-history map. -/
structure Usage where
  frequency : Nat
  lastUsed : Nat
deriving DecidableEq, Repr

def lowerStr (s : String) : String := String.mk (s.data.map Char.toLower)

/-- Model of `textBeforeCursor.split(/\s+/).pop()`: the last element of the
whitespace split (empty when the text ends in whitespace). -/
def jsLastToken (s : String) : String :=
  String.mk ((s.data.reverse.takeWhile (fun c => ¬ isSpaceChar c)).reverse)

/-- Prefix/substring match score on the typed partial word
(+100 prefix, +50 substring). -/
def matchScore (typed label : String) : Nat :=
  if (lowerStr typed).data.isPrefixOf (lowerStr label).data then 100
  else if containsSub (lowerStr label).data (lowerStr typed).data then 50
  else 0

/-- Frequency and recency score of one usage record:
`min(frequency × 10, 50)` plus 30/20/10 for last use within
1 minute / 5 minutes / 1 hour. -/
def usageBonus (u : Option Usage) (now : Nat) : Nat :=
  match u with
  | none => 0
  | some u =>
    let timeDiff := now - u.lastUsed
    min (u.frequency * 10) 50 +
      (if timeDiff < 60000 then 30
       else if timeDiff < 300000 then 20
       else if timeDiff < 3600000 then 10
       else 0)

/-- +25 when the candidate's detail mentions the enclosing function. -/
def contextBonus (currentFunction : Option String) (detail : Option String) : Nat :=
  match currentFunction, detail with
  | some f, some d => if containsSub d.data f.data then 25 else 0
  | _, _ => 0

def lookupUsage (usage : List (String × Usage)) (label : String) : Option Usage :=
  (usage.find? (fun e => e.1 = label)).map (·.2)

/-- The additive score of one item. -/
def rankScore (typed : String) (usage : List (String × Usage)) (now : Nat)
    (currentFunction : Option String) (it : RankItem) : Nat :=
  matchScore typed it.label + usageBonus (lookupUsage usage it.label) now
    + contextBonus currentFunction it.detail

/-- Model of `String(n).padStart(4, '0')`. -/
def padStart4 (n : Nat) : String :=
  let s := Nat.repr n
  String.mk (List.replicate (4 - s.length) '0' ++ s.data)

/-- Model of `${String(1000 - score).padStart(4, '0')}_${item.label}`. -/
def mkSortText (score : Nat) (label : String) : String :=
  padStart4 (1000 - score) ++ "_" ++ label

/-- Code-unit lexicographic comparison of two character lists: the
model of the `localeCompare`-based ascending sort. -/
def charListLe : List Char → List Char → Bool
  | [], _ => true
  | _ :: _, [] => false
  | a :: as, b :: bs =>
    if a < b then true
    else if b < a then false
    else charListLe as bs

/-- A completion item after ranking. -/
structure RankedItem where
  label : String
  detail : Option String
  sortText : String
deriving DecidableEq, Repr

/-- Model of `applyIntelligentRanking`: score each item, overwrite its
`sortText`, and sort ascending by `sortText` (the `localeCompare` sort,
modelled by the code-unit string order; JS `Array.prototype.sort` is
stable, modelled by insertion sort). -/
def applyIntelligentRanking (items : List RankItem) (textBeforeCursor : String)
    (usage : List (String × Usage)) (now : Nat)
    (currentFunction : Option String) : List RankedItem :=
  let typed := jsLastToken textBeforeCursor
  let mapped := items.map (fun it =>
    { label := it.label, detail := it.detail,
      sortText := mkSortText (rankScore typed usage now currentFunction it) it.label
      : RankedItem })
  List.insertionSort (fun a b => charListLe a.sortText.data b.sortText.data = true) mapped

/-! ### Version completions
(`LDLCompletionProvider.provideVersionCompletions`) -/

/-- Extraction of the enclosing call's function name from the trailing
text: the leftmost match of
`(\w+)\s*\([^)]*version\s*:\s*["']?[^"']*$`. -/
def tryVersionCtxAt (text : List Char) (i : Nat) : Option String :=
  let w := (text.drop i).takeWhile isWordChar
  if w.isEmpty then none
  else
    let s1 := text.drop (i + w.length)
    let sp := runLen isSpaceChar s1
    match s1.drop sp with
    | '(' :: body =>
      let ks := ((subOccurrences body ("version".data)).filter
          (fun k => (body.take k).all (fun c => c != ')'))).reverse
      match pickFirst (fun k =>
        let t := body.drop (k + 7)
        let sp2 := runLen isSpaceChar t
        match t.drop sp2 with
        | ':' :: t2 =>
          let sp3 := runLen isSpaceChar t2
          let t3 := t2.drop sp3
          let t4 := match t3 with
            | c :: rest => if isQuoteChar c then rest else t3
            | [] => t3
          if t4.all (fun c => ¬ isQuoteChar c) then some () else none
        | _ => none) ks with
      | some () => some (String.mk w)
      | none => none
    | _ => none

/-- Leftmost starting position wins (JS `String.prototype.match` without
the `g` flag). -/
def extractVersionFunctionName (textBeforeCursor : String) : Option String :=
  (List.range (textBeforeCursor.data.length)).firstM
    (fun i => tryVersionCtxAt textBeforeCursor.data i)

/-- JS `Set` insertion order: distinct values in order of first
occurrence. -/
def collectVersions (symbols : List LDLSymbol) : List String :=
  symbols.foldl (fun acc s =>
    match s.version with
    | some v => dedupAppend acc v
    | none => acc) []

/-- A version completion candidate. -/
structure VersionItem where
  label : String
  detail : String
  sortText : Option String := none
deriving DecidableEq, Repr

/-- The fixed catalog of conventional version names. -/
def commonVersions : List String :=
  ["basic", "advanced", "academic", "practical", "simplified", "enhanced"]

/-- Model of `provideVersionCompletions(textBeforeCursor)` against the current
document's parsed table: existing versions of the extracted function
name first, then the catalog names not already present (tagged with a
`z_` sort text). -/
def provideVersionCompletions (textBeforeCursor : String) (st : ParserState) :
    List VersionItem :=
  match extractVersionFunctionName textBeforeCursor with
  | none => []
  | some functionName =>
    let functions := findAllSymbols st functionName none none
    let versions := collectVersions functions
    versions.map (fun v =>
      { label := v, detail := functionName ++ " 的版本", sortText := none })
    ++ (commonVersions.filter (fun v => ¬ versions.contains v)).map (fun v =>
      { label := v, detail := "常用版本名", sortText := some ("z_" ++ v) })

/-! ### Specification-side definitions

These definitions follow the wording of (amended) specification
sentences; they are compared against the source-derived definitions
above by the refinement theorems below. -/

/-- A line over which the backward label/documentation scan continues
(blank, or starting with `@` or `//`). -/
def contLine (l : List Char) : Bool :=
  ¬ stopsScan (jsTrim l)

/-- Specification reading of the documentation capture: within the
contiguous block of non-stopping lines immediately preceding the
declaration, the doc-comment line occurring earliest in source order
(farthest from the declaration) provides the documentation.  The input
is the line list in reverse source order, as scanned by the parser. -/
def specDocumentation (revLines : List (List Char)) : Option String :=
  ((revLines.takeWhile contLine).reverse.find?
      (fun l => "///".data.isPrefixOf (jsTrim l))).map
    (fun l => String.mk (jsTrim ((jsTrim l).drop 3)))

/-- The decimal digit character for `d ≤ 9`. -/
def digitOf (d : Nat) : Char := Char.ofNat (48 + d)

/-- Four-digit zero-padded decimal representation (the value of
`String(n).padStart(4, '0')` for `n ≤ 9999`). -/
def digits4 (n : Nat) : List Char :=
  [digitOf (n / 1000 % 10), digitOf (n / 100 % 10), digitOf (n / 10 % 10), digitOf (n % 10)]

/-- Label-index soundness and completeness invariant: the label-index
keys are distinct and are exactly the label values attached to at least
one symbol of the table. -/
def LabelInv (st : ParserState) : Prop :=
  (st.labelIndex.map Prod.fst).Nodup
    ∧ ∀ a, a ∈ st.labelIndex.map Prod.fst
        ↔ ∃ s ∈ getAllSymbols st, a ∈ s.labels.getD []

/-! ### Concrete documents used to instantiate the theorems -/

/-- Two overloads of one function distinguished by version tags. -/
def twoVersionDoc : String := "fn f(version: \"a\")\nfn f(version: \"b\")"

/-- The parsed symbols of `twoVersionDoc`. -/
def fSymA : LDLSymbol :=
  { name := "f", position := { line := 0, character := 0 }, type := .function,
    version := some "a", labels := some [] }

def fSymB : LDLSymbol :=
  { name := "f", position := { line := 1, character := 0 }, type := .function,
    version := some "b", labels := some [] }

/-- A class method and a free function sharing the name `foo`. -/
def methodAndFnDoc : String := "class T \x7b\nfn foo()\n\x7d\nfn foo()"

/-- Two methods of class `T` with distinct version tags. -/
def twoMethodDoc : String :=
  "class T \x7b\nfn a(version: \"x\")\nfn a(version: \"y\")\n\x7d"

/-- The first parsed method of `twoMethodDoc`. -/
def methodSymX : LDLSymbol :=
  { name := "a", position := { line := 1, character := 0 }, type := .method,
    version := some "x", className := some "T", isStatic := some false,
    labels := some [] }

/-- Two doc-comment lines preceding one declaration. -/
def twoDocCommentDoc : String := "/// far\n/// near\nfn f()"

/-- A type body whose string literal contains a closing brace. -/
def braceInStringDoc : String := "class A \x7b x = \"\x7d\" \x7d tail"

/-- A type body whose braces never balance. -/
def unbalancedDoc : String := "class A \x7b \""

/-- The reference-search example line of the specification. -/
def stringRefLine : String := "let s = \"call foo() here\""

/-- Current document and second workspace document for the
version-completion scenario. -/
def versionDocA : String := "fn SQ3R(version: \"classic\")"

def versionDocB : String := "fn SQ3R(version: \"remote\")"

def sq3rDoc : String := "fn SQ3R(version: \"classic\")\nfn SQ3R(version: \"academic\")"

/-! ## Shared lemmas -/

/-- A fold preserves any invariant preserved by its step function. -/
theorem foldl_preserve {α β : Type} (P : α → Prop) (step : α → β → α)
    (h : ∀ acc x, P acc → P (step acc x)) :
    ∀ (l : List β) (acc : α), P acc → P (l.foldl step acc) := by
  intro l
  induction l with
  | nil => intro acc hp; exact hp
  | cons x xs ih => intro acc hp; exact ih _ (h acc x hp)

theorem mem_dedupAppend {α : Type} [DecidableEq α] (acc : List α) (x a : α) :
    a ∈ dedupAppend acc x ↔ a ∈ acc ∨ a = x := by
  unfold dedupAppend
  split
  · next h => constructor
              · exact fun ha => Or.inl ha
              · rintro (ha | rfl)
                · exact ha
                · exact h
  · simp

theorem nodup_dedupAppend {α : Type} [DecidableEq α] (acc : List α) (x : α)
    (h : acc.Nodup) : (dedupAppend acc x).Nodup := by
  unfold dedupAppend
  split
  · exact h
  · next hx => simpa [List.nodup_append] using ⟨h, hx⟩

/-- A line accepted by `labelContent` starts with `@`. -/
theorem labelContent_head {t : List Char} {v : String}
    (h : labelContent t = some v) : ∃ rest, t = '@' :: rest := by
  unfold labelContent at h
  match t with
  | [] => simp [dropLitS, dropLit] at h
  | c :: rest =>
    refine ⟨rest, ?_⟩
    by_cases hc : c = '@'
    · rw [hc]
    · exfalso
      simp [dropLitS, dropLit, hc] at h

/-- Unfolding `specDocumentation` on a continuing head line. -/
theorem specDocumentation_cons_cont {l : List Char} (rest : List (List Char))
    (hcont : contLine l = true) :
    specDocumentation (l :: rest)
      = ((((rest.takeWhile contLine).reverse.find?
            (fun l => "///".data.isPrefixOf (jsTrim l))).or
          (if "///".data.isPrefixOf (jsTrim l) then some l else none)).map
        (fun l => String.mk (jsTrim ((jsTrim l).drop 3)))) := by
  unfold specDocumentation
  rw [List.takeWhile_cons, if_pos hcont, List.reverse_cons, List.find?_append]
  congr 1
  cases hd : ("///".data.isPrefixOf (jsTrim l)) with
  | true => simp [List.find?, hd]
  | false => simp [List.find?, hd]

/-- The backward scan's documentation result refines
`specDocumentation`: the earliest doc-comment of the scanned block wins,
falling back to the accumulator. -/
theorem scanBack_doc (rev : List (List Char)) (labels : List String)
    (doc : Option String) :
    (scanBack rev labels doc).2
      = match specDocumentation rev with
        | some d => some d
        | none => doc := by
  induction rev generalizing labels doc with
  | nil => simp [scanBack, specDocumentation]
  | cons l rest ih =>
    unfold scanBack
    cases hl : labelContent (jsTrim l) with
    | some v =>
      obtain ⟨r, hr⟩ := labelContent_head hl
      have hnd : ("///".data.isPrefixOf (jsTrim l)) = false := by
        rw [hr]; simp [List.isPrefixOf]
      have hcont : contLine l = true := by
        unfold contLine stopsScan
        rw [hr]
        simp [List.isPrefixOf]
      simp only [hl]
      rw [ih, specDocumentation_cons_cont rest hcont, hnd]
      simp [specDocumentation]
    | none =>
      cases hd : ("///".data.isPrefixOf (jsTrim l)) with
      | true =>
        have hcont : contLine l = true := by
          unfold contLine stopsScan
          have h2 : ("//".data.isPrefixOf (jsTrim l)) = true := by
            rw [ List.isPrefixOf_iff_prefix] at hd ⊢
            exact List.IsPrefix.trans ⟨['/'], rfl⟩ hd
          simp [h2]
        simp only [hl, hd, ite_true]
        rw [ih, specDocumentation_cons_cont rest hcont, hd]
        simp only [ite_true]
        cases h2 : ((rest.takeWhile contLine).reverse.find?
            (fun l => "///".data.isPrefixOf (jsTrim l))) with
        | some x =>
          unfold specDocumentation
          rw [h2]
          simp [Option.or]
        | none =>
          unfold specDocumentation
          rw [h2]
          simp [Option.or]
      | false =>
        simp only [hl, hd, ite_false]
        cases hstop : stopsScan (jsTrim l) with
        | true =>
          have hcont : contLine l = false := by
            unfold contLine
            simp [hstop]
          simp only [ite_true]
          unfold specDocumentation
          rw [List.takeWhile_cons]
          simp [hcont]
        | false =>
          have hcont : contLine l = true := by
            unfold contLine
            simp [hstop]
          show (scanBack rest labels doc).2 = _
          rw [ih, specDocumentation_cons_cont rest hcont, hd]
          simp [specDocumentation]

/-! ## C1: overload resolution by version -/

/-- C1 — Overload resolution by version: if the name bucket of a parsed
table contains a unique declaration tagged `v1`, then
`findSymbol(name, v1)` returns exactly that declaration (hence never one
tagged `v2 ≠ v1`), and every element of `findAllSymbols(name, v1)` is
tagged `v1` (hence none is tagged `v2`). -/
theorem overload_resolution_by_version
    (st : ParserState) (name v1 v2 : String) (bucket : List LDLSymbol)
    (s : LDLSymbol)
    (hb : bucketLookup st.symbols name = some bucket)
    (hs : s ∈ bucket) (hv : s.version = some v1)
    (huniq : ∀ s' ∈ bucket, s'.version = some v1 → s' = s)
    (hne : v1 ≠ v2) :
    findSymbol st name (some v1) none = some s ∧
    ∀ x ∈ findAllSymbols st name (some v1) none,
      x.version = some v1 ∧ x.version ≠ some v2 := by
  constructor
  · have hex : (bucket.find? (fun s => s.version == some v1)).isSome := by
      rw [List.find?_isSome]
      exact ⟨s, hs, by simp [hv]⟩
    obtain ⟨x, hx⟩ := Option.isSome_iff_exists.mp hex
    have hxmem : x ∈ bucket := List.mem_of_find?_eq_some hx
    have hxv : x.version = some v1 := by simpa using List.find?_some hx
    have hfind : bucket.find? (fun s => s.version == some v1) = some s := by
      rw [hx, huniq x hxmem hxv]
    unfold findSymbol
    rw [hb]
    exact hfind
  · intro x hx
    have hmem : x ∈ bucket.filter (fun s => s.version == some v1) := by
      have : findAllSymbols st name (some v1) none
          = bucket.filter (fun s => s.version == some v1) := by
        unfold findAllSymbols
        rw [hb]
      rwa [this] at hx
    have hxv : x.version = some v1 := by
      have := (List.mem_filter.mp hmem).2
      simpa using this
    exact ⟨hxv, by simp [hxv, hne]⟩

/-- Witness for C1 on `twoVersionDoc`. -/
theorem overload_resolution_by_version_witness :
    (bucketLookup (parseDocument emptyParser twoVersionDoc).symbols "f"
        = some [fSymA, fSymB]
      ∧ fSymA ∈ [fSymA, fSymB] ∧ fSymA.version = some "a"
      ∧ (∀ s' ∈ [fSymA, fSymB], s'.version = some "a" → s' = fSymA)
      ∧ "a" ≠ "b")
    ∧ (findSymbol (parseDocument emptyParser twoVersionDoc) "f" (some "a") none
        = some fSymA
      ∧ ∀ x ∈ findAllSymbols (parseDocument emptyParser twoVersionDoc) "f"
          (some "a") none,
          x.version = some "a" ∧ x.version ≠ some "b") :=
  ⟨⟨by decide, by decide, by decide, by decide, by decide⟩,
    overload_resolution_by_version (parseDocument emptyParser twoVersionDoc)
      "f" "a" "b" [fSymA, fSymB] fSymA (by decide) (by decide) (by decide)
      (by decide) (by decide)⟩

/-! ## C2: owner precedence in lookup -/

/-- C2 — counterexample: in `methodAndFnDoc` the bucket of `foo` holds
the class method first (classes are parsed before free functions), so
`find("foo")` with no owner returns the method, not the free function;
and in `twoMethodDoc`, `find("a", version := "y", owner := "T")` returns
the first method of `T`, tagged `"x"` — the version argument is not
applied. -/
theorem owner_precedence_counterexample :
    ((findAllSymbols (parseDocument emptyParser methodAndFnDoc) "foo" none none).map
        (fun s => s.type) = [.method, .function])
    ∧ ((findSymbol (parseDocument emptyParser methodAndFnDoc) "foo" none none).map
        (fun s => s.type) = some .method)
    ∧ ((findSymbol (parseDocument emptyParser twoMethodDoc) "a" (some "y")
        (some "T")).map (fun s => s.version) = some (some "x")) := by
  refine ⟨by decide, by decide, by decide⟩

/-- C2 (amended) — Owner precedence: when an owner is supplied and some
bucket entry is owned by it, `findSymbol` returns the first-inserted
symbol owned by that type, ignoring any version argument; with no owner
and no version it returns the first-inserted symbol of the bucket
(which, when a class method and a free function share the name, is the
method, because classes are parsed before free functions). -/
theorem owner_precedence_amended :
    (∀ (st : ParserState) (name : String) (v : Option String) (cn : String)
        (bucket : List LDLSymbol) (m : LDLSymbol),
      bucketLookup st.symbols name = some bucket →
      bucket.find? (fun s => s.className == some cn) = some m →
      findSymbol st name v (some cn) = some m)
    ∧ (∀ (st : ParserState) (name : String) (bucket : List LDLSymbol),
      bucketLookup st.symbols name = some bucket →
      findSymbol st name none none = bucket.head?) := by
  constructor
  · intro st name v cn bucket m hb hf
    unfold findSymbol
    rw [hb]
    simp only [hf]
  · intro st name bucket hb
    unfold findSymbol
    rw [hb]

/-- Witness for the amended C2 on `twoMethodDoc` and `methodAndFnDoc`. -/
theorem owner_precedence_amended_witness :
    (bucketLookup (parseDocument emptyParser twoMethodDoc).symbols "a"
        = some (findAllSymbols (parseDocument emptyParser twoMethodDoc) "a" none none)
      ∧ (findAllSymbols (parseDocument emptyParser twoMethodDoc) "a" none none).find?
          (fun s => s.className == some "T") = some methodSymX
      ∧ findSymbol (parseDocument emptyParser twoMethodDoc) "a" (some "y") (some "T")
          = some methodSymX)
    ∧ (bucketLookup (parseDocument emptyParser methodAndFnDoc).symbols "foo"
        = some (findAllSymbols (parseDocument emptyParser methodAndFnDoc) "foo" none none)
      ∧ findSymbol (parseDocument emptyParser methodAndFnDoc) "foo" none none
        = (findAllSymbols (parseDocument emptyParser methodAndFnDoc) "foo" none none).head?) :=
  ⟨⟨by decide, by decide,
    owner_precedence_amended.1 (parseDocument emptyParser twoMethodDoc) "a"
      (some "y") "T"
      (findAllSymbols (parseDocument emptyParser twoMethodDoc) "a" none none)
      methodSymX (by decide) (by decide)⟩,
   ⟨by decide,
    owner_precedence_amended.2 (parseDocument emptyParser methodAndFnDoc) "foo"
      (findAllSymbols (parseDocument emptyParser methodAndFnDoc) "foo" none none)
      (by decide)⟩⟩

/-! ## C3: documentation capture -/

/-- C3 — counterexample: with two doc-comment lines `/// far` and
`/// near` preceding the declaration, the recorded documentation is
`"far"` — the doc-comment *farthest* from the declaration — not the
closest one `"near"`: each doc-comment found while scanning backward
overwrites the previous value, so the last one found wins. -/
theorem doc_capture_counterexample :
    (parseLabelsAndDocumentation twoDocCommentDoc.data 17).2 = some "far"
    ∧ (some "far" : Option String) ≠ some "near"
    ∧ ((getAllSymbols (parseDocument emptyParser twoDocCommentDoc)).map
        (fun s => s.documentation) = [some "far"]) := by
  refine ⟨by decide, by decide, by decide⟩

/-- C3 (amended) — the documentation recorded for a declaration is the
content of the doc-comment line occurring *earliest in source order*
(farthest from the declaration) within the contiguous scanned block of
blank/annotation/comment lines: the backward scan overwrites on each
doc-comment, so the last one it visits wins. -/
theorem doc_capture_amended (text : List Char) (startIndex : Nat) :
    (parseLabelsAndDocumentation text startIndex).2
      = specDocumentation ((splitLines (text.take startIndex)).reverse) := by
  unfold parseLabelsAndDocumentation
  rw [scanBack_doc]
  cases specDocumentation ((splitLines (text.take startIndex)).reverse) <;> rfl

/-! ## C4: parse determinism and atomic replacement -/

/-- C4 — Parse determinism and atomic replacement: the result of
`parseDocument` does not depend on the parser's previous state (both
maps are cleared first, so nothing from an earlier parse survives), and
reparsing unchanged text reproduces the same table. -/
theorem parse_deterministic_atomic :
    (∀ (s₁ s₂ : ParserState) (text : String),
      parseDocument s₁ text = parseDocument s₂ text)
    ∧ (∀ (s : ParserState) (text : String),
      parseDocument (parseDocument s text) text = parseDocument s text) := by
  constructor
  · intro s₁ s₂ text; rfl
  · intro s text; rfl

/-! ## C5: cache staleness -/

/-- C5 — Cache staleness: a second `getParserForDocument` call with an
unchanged modification time returns the previously returned table and
leaves the cache untouched (the content supplied to the second call is
ignored), while a call whose modification time exceeds the cached one
reparses the current content and replaces the entry — even when the
content is byte-for-byte unchanged. -/
theorem cache_staleness :
    (∀ (cache : Option CacheEntry) (mtime : Nat) (c₁ c₂ : String),
      getParserForDocument ((getParserForDocument cache mtime c₁).2) mtime c₂
        = getParserForDocument cache mtime c₁)
    ∧ (∀ (e : CacheEntry) (mtime' : Nat) (content : String),
      e.lastModified < mtime' →
      getParserForDocument (some e) mtime' content
        = (parseDocument emptyParser content,
            some { parser := parseDocument emptyParser content,
                   lastModified := mtime' })) := by
  constructor
  · intro cache mtime c₁ c₂
    match cache with
    | none => simp [getParserForDocument]
    | some c =>
      by_cases h : mtime ≤ c.lastModified
      · simp [getParserForDocument, h]
      · simp [getParserForDocument, h]
  · intro e mtime' content h
    have : ¬ mtime' ≤ e.lastModified := by omega
    simp [getParserForDocument, this]

/-- Witness for C5: a stale entry (time 0) queried at time 1 is
reparsed even though the content is unchanged. -/
theorem cache_staleness_witness :
    (CacheEntry.lastModified
        { parser := parseDocument emptyParser "fn f()", lastModified := 0 } < 1)
    ∧ (getParserForDocument
        (some { parser := parseDocument emptyParser "fn f()", lastModified := 0 })
        1 "fn f()"
      = (parseDocument emptyParser "fn f()",
          some { parser := parseDocument emptyParser "fn f()",
                 lastModified := 1 })) :=
  ⟨by decide,
   cache_staleness.2
     { parser := parseDocument emptyParser "fn f()", lastModified := 0 }
     1 "fn f()" (by decide)⟩

/-! ## C6: type-body brace matching -/

/-- C6 — Type-body brace matching: a scanner step taken inside a string
literal never changes the brace nesting count and never terminates the
scan (so braces inside string literals are non-structural); when the
scan reaches the end of the text without balancing, `findClassEndIndex`
returns the text length; and on `braceInStringDoc` the closing brace
inside the quoted string is skipped, the real closing brace at offset 18
ending the body. -/
theorem brace_matching :
    (∀ (st : ScanState) (prev c : Char), st.inStr = true →
      (classEndStep st prev c).1.brace = st.brace
        ∧ (classEndStep st prev c).2 = false)
    ∧ (∀ (text : List Char) (startIndex : Nat),
      classEndLoop (text.drop startIndex) startIndex
          { brace := 0, inStr := false, strChar := ' ' } ' ' = none →
      findClassEndIndex text startIndex = text.length)
    ∧ findClassEndIndex braceInStringDoc.data 0 = 19
    ∧ braceInStringDoc.data.length = 24 := by
  refine ⟨?_, ?_, by decide, by decide⟩
  · intro st prev c h
    unfold classEndStep
    rw [h]
    rw [if_neg (by simp)]
    split <;> simp
  · intro text startIndex h
    unfold findClassEndIndex
    rw [h]
    rfl

/-- Witness for C6: a step inside a string on a closing brace keeps the
count, and the unterminated `unbalancedDoc` extends to the end of the
text. -/
theorem brace_matching_witness :
    (ScanState.inStr { brace := 1, inStr := true, strChar := '"' } = true
      ∧ (classEndStep { brace := 1, inStr := true, strChar := '"' } 'x' '\x7d').1.brace = 1
      ∧ (classEndStep { brace := 1, inStr := true, strChar := '"' } 'x' '\x7d').2 = false)
    ∧ (classEndLoop (unbalancedDoc.data.drop 0) 0
          { brace := 0, inStr := false, strChar := ' ' } ' ' = none
      ∧ findClassEndIndex unbalancedDoc.data 0 = unbalancedDoc.data.length) :=
  ⟨⟨rfl,
    (brace_matching.1 { brace := 1, inStr := true, strChar := '"' } 'x' '\x7d' rfl).1,
    (brace_matching.1 { brace := 1, inStr := true, strChar := '"' } 'x' '\x7d' rfl).2⟩,
   ⟨by decide, brace_matching.2.1 unbalancedDoc.data 0 (by decide)⟩⟩


/-! ## C7: reference-search filtering and deduplication -/

/-- C7 — Reference-search filtering and deduplication: every candidate
match surviving into the result set lies neither in a line comment nor
in an open string span; the returned positions of a document are
pairwise distinct; and the example line
`let s = "call foo() here"` produces exactly one raw candidate (the
call-syntax match at column 14), which lies inside the string span and
is discarded, so the line contributes zero references for `foo`. -/
theorem reference_filtering_dedup :
    (∀ (line name : List Char) (m : Nat × Nat), m ∈ keptCandidates line name →
      isInComment line m.1 = false ∧ isInString line m.1 = false)
    ∧ (∀ (text : List Char) (symbolName : String),
      (findReferencesInDocument text symbolName).Nodup)
    ∧ findReferencesInDocument stringRefLine.data "foo" = []
    ∧ refCandidates stringRefLine.data "foo".data = [(14, 4)]
    ∧ isInString stringRefLine.data 14 = true := by
  refine ⟨?_, ?_, by decide, by decide, by decide⟩
  · intro line name m hm
    have h := (List.mem_filter.mp hm).2
    simp only [Bool.and_eq_true, decide_eq_true_eq, Bool.not_eq_true] at h
    exact h
  · intro text symbolName
    unfold findReferencesInDocument
    refine foldl_preserve (fun acc : List Pos => acc.Nodup) _ ?_ _ _ List.nodup_nil
    intro acc l hacc
    unfold refsInLine
    refine foldl_preserve (fun acc : List Pos => acc.Nodup) _ ?_ _ _ hacc
    intro acc2 m h2
    rcases m with ⟨idx, len⟩
    cases hfw : firstWordIndex ((l.2.drop idx).take len) symbolName.data with
    | some off =>
      simp only [hfw]
      exact nodup_dedupAppend _ _ h2
    | none =>
      simp only [hfw]
      exact h2

/-- Witness for C7: the call-syntax candidate at column 0 of `foo()` is
kept and indeed lies in neither a comment nor a string. -/
theorem reference_filtering_dedup_witness :
    ((0, 4) ∈ keptCandidates ("foo()".data) ("foo".data))
    ∧ (isInComment ("foo()".data) 0 = false
        ∧ isInString ("foo()".data) 0 = false) :=
  ⟨by decide, reference_filtering_dedup.1 ("foo()".data) ("foo".data) (0, 4) (by decide)⟩

/-! ## C10: the label accessor is sorted and complete -/

theorem bucketInsert_cons_eq {α : Type} (k : String) (vs : List α)
    (rest : List (String × List α)) (v : α) :
    bucketInsert ((k, vs) :: rest) k v = (k, vs ++ [v]) :: rest := by
  unfold bucketInsert
  rw [if_pos rfl]

theorem bucketInsert_cons_ne {α : Type} {k2 k : String} (h : k2 ≠ k)
    (vs : List α) (rest : List (String × List α)) (v : α) :
    bucketInsert ((k2, vs) :: rest) k v = (k2, vs) :: bucketInsert rest k v := by
  rw [show bucketInsert ((k2, vs) :: rest) k v
      = if k2 = k then (k2, vs ++ [v]) :: rest
        else (k2, vs) :: bucketInsert rest k v from rfl,
    if_neg h]

theorem mem_map_fst_bucketInsert {α : Type} (m : List (String × List α))
    (k : String) (v : α) (a : String) :
    a ∈ (bucketInsert m k v).map Prod.fst ↔ a ∈ m.map Prod.fst ∨ a = k := by
  induction m with
  | nil => simp [bucketInsert]
  | cons e rest ih =>
    rcases e with ⟨k2, vs⟩
    by_cases hk : k2 = k
    · subst hk
      simp [bucketInsert]
      tauto
    · simp only [bucketInsert, if_neg hk, List.map_cons, List.mem_cons, ih]
      tauto

theorem nodup_map_fst_bucketInsert {α : Type} (m : List (String × List α))
    (k : String) (v : α) (h : (m.map Prod.fst).Nodup) :
    ((bucketInsert m k v).map Prod.fst).Nodup := by
  induction m with
  | nil => simp [bucketInsert]
  | cons e rest ih =>
    rcases e with ⟨k2, vs⟩
    rw [List.map_cons, List.nodup_cons] at h
    by_cases hk : k2 = k
    · subst hk
      simpa [bucketInsert, List.nodup_cons] using h
    · rw [bucketInsert, if_neg hk, List.map_cons, List.nodup_cons]
      refine ⟨?_, ih h.2⟩
      rw [mem_map_fst_bucketInsert]
      rintro (hm | rfl)
      · exact h.1 hm
      · exact hk rfl

theorem mem_flatten_bucketInsert {α : Type} [DecidableEq α]
    (m : List (String × List α)) (k : String) (v x : α) :
    x ∈ ((bucketInsert m k v).map Prod.snd).flatten
      ↔ x ∈ (m.map Prod.snd).flatten ∨ x = v := by
  induction m with
  | nil => simp [bucketInsert]
  | cons e rest ih =>
    rcases e with ⟨k2, vs⟩
    by_cases hk : k2 = k
    · subst hk
      rw [bucketInsert_cons_eq]
      simp only [List.map_cons, List.flatten_cons, List.mem_append,
        List.mem_singleton]
      tauto
    · rw [bucketInsert_cons_ne hk]
      simp only [List.map_cons, List.flatten_cons, List.mem_append, ih]
      tauto

theorem mem_map_fst_labelFold (ls : List String) (s : LDLSymbol)
    (m : List (String × List LDLSymbol)) (a : String) :
    a ∈ ((ls.foldl (fun m lab => bucketInsert m lab s) m).map Prod.fst)
      ↔ a ∈ m.map Prod.fst ∨ a ∈ ls := by
  induction ls generalizing m with
  | nil => simp
  | cons lab ls ih =>
    rw [List.foldl_cons, ih, mem_map_fst_bucketInsert]
    simp only [List.mem_cons]
    tauto

theorem nodup_map_fst_labelFold (ls : List String) (s : LDLSymbol)
    (m : List (String × List LDLSymbol)) (h : (m.map Prod.fst).Nodup) :
    (((ls.foldl (fun m lab => bucketInsert m lab s) m)).map Prod.fst).Nodup := by
  induction ls generalizing m with
  | nil => exact h
  | cons lab ls ih =>
    rw [List.foldl_cons]
    exact ih _ (nodup_map_fst_bucketInsert _ _ _ h)

/-- Pushing a symbol and indexing its labels preserves `LabelInv`. -/
theorem labelInv_add (st : ParserState) (s : LDLSymbol) (h : LabelInv st) :
    LabelInv (addToLabelIndex (pushSymbol st s) s) := by
  rcases h with ⟨hnd, hmem⟩
  cases hls : s.labels with
  | none =>
    constructor
    · simpa [addToLabelIndex, hls, pushSymbol] using hnd
    · intro a
      simp only [addToLabelIndex, hls, pushSymbol]
      rw [hmem a]
      unfold getAllSymbols
      simp only []
      rw [show (bucketInsert st.symbols s.name s) =
        (ParserState.mk (bucketInsert st.symbols s.name s) st.labelIndex).symbols from rfl]
      constructor
      · rintro ⟨x, hx, hxa⟩
        exact ⟨x, (mem_flatten_bucketInsert _ _ _ _).mpr (Or.inl hx), hxa⟩
      · rintro ⟨x, hx, hxa⟩
        rcases (mem_flatten_bucketInsert _ _ _ _).mp hx with hx2 | rfl
        · exact ⟨x, hx2, hxa⟩
        · rw [hls] at hxa
          simp at hxa
  | some ls =>
    constructor
    · simp only [addToLabelIndex, hls, pushSymbol]
      exact nodup_map_fst_labelFold ls s _ hnd
    · intro a
      simp only [addToLabelIndex, hls, pushSymbol]
      rw [mem_map_fst_labelFold, hmem a]
      unfold getAllSymbols
      simp only []
      constructor
      · rintro (⟨x, hx, hxa⟩ | hals)
        · exact ⟨x, (mem_flatten_bucketInsert _ _ _ _).mpr (Or.inl hx), hxa⟩
        · exact ⟨s, (mem_flatten_bucketInsert _ _ _ _).mpr (Or.inr rfl),
            by simp [hls, hals]⟩
      · rintro ⟨x, hx, hxa⟩
        rcases (mem_flatten_bucketInsert _ _ _ _).mp hx with hx2 | rfl
        · exact Or.inl ⟨x, hx2, hxa⟩
        · rw [hls] at hxa
          simp at hxa
          exact Or.inr hxa

/-- Pushing a label-free symbol alone preserves `LabelInv`. -/
theorem labelInv_push (st : ParserState) (s : LDLSymbol)
    (hls : s.labels = none) (h : LabelInv st) : LabelInv (pushSymbol st s) := by
  have h2 := labelInv_add st s h
  rwa [addToLabelIndex, hls] at h2

theorem labelInv_parseClassMethods (st : ParserState) (text : List Char)
    (cn : String) (cs : Nat) (h : LabelInv st) :
    LabelInv (parseClassMethods st text cn cs) := by
  unfold parseClassMethods
  refine foldl_preserve LabelInv _ ?_ _ _ h
  intro st2 m h2
  exact labelInv_add _ _ h2

theorem labelInv_parseClasses (st : ParserState) (text : List Char)
    (h : LabelInv st) : LabelInv (parseClasses st text) := by
  unfold parseClasses
  refine foldl_preserve LabelInv _ ?_ _ _ h
  intro st2 m h2
  exact labelInv_parseClassMethods _ _ _ _ (labelInv_add _ _ h2)

theorem labelInv_parseFunctions (st : ParserState) (text : List Char)
    (h : LabelInv st) : LabelInv (parseFunctions st text) := by
  unfold parseFunctions
  refine foldl_preserve LabelInv _ ?_ _ _ h
  intro st2 m h2
  rcases m with ⟨idx, len, fnOff, name, ver⟩
  dsimp only
  split
  · exact h2
  · exact labelInv_add _ _ h2

theorem labelInv_parsePipelines (st : ParserState) (text : List Char)
    (h : LabelInv st) : LabelInv (parsePipelines st text) := by
  unfold parsePipelines
  refine foldl_preserve LabelInv _ ?_ _ _ h
  intro st2 m h2
  exact labelInv_add _ _ h2

theorem labelInv_parseTypeAliases (st : ParserState) (text : List Char)
    (h : LabelInv st) : LabelInv (parseTypeAliases st text) := by
  unfold parseTypeAliases
  refine foldl_preserve LabelInv _ ?_ _ _ h
  intro st2 m h2
  exact labelInv_push _ _ rfl h2

theorem labelInv_parseMacroDefs (st : ParserState) (text : List Char)
    (h : LabelInv st) : LabelInv (parseMacroDefs st text) := by
  unfold parseMacroDefs
  refine foldl_preserve LabelInv _ ?_ _ _ h
  intro st2 m h2
  exact labelInv_push _ _ rfl h2

theorem labelInv_parseConstants (st : ParserState) (text : List Char)
    (h : LabelInv st) : LabelInv (parseConstants st text) := by
  unfold parseConstants
  refine foldl_preserve LabelInv _ ?_ _ _ h
  intro st2 m h2
  exact labelInv_push _ _ rfl h2

/-- The parsed table of any document satisfies `LabelInv`. -/
theorem labelInv_parseDocument (st : ParserState) (text : String) :
    LabelInv (parseDocument st text) := by
  unfold parseDocument
  apply labelInv_parseConstants
  apply labelInv_parseMacroDefs
  apply labelInv_parseTypeAliases
  apply labelInv_parsePipelines
  apply labelInv_parseFunctions
  apply labelInv_parseClasses
  constructor
  · simp
  · intro a
    simp [getAllSymbols]

/-- C10 — `getAllLabels` of a parsed document lists, in ascending
lexicographic order and without duplicates, exactly the label values
attached to at least one symbol of the table — unlike the
insertion-ordered buckets, the keys are sorted. -/
theorem all_labels_sorted_complete (text : String) :
    ((getAllLabels (parseDocument emptyParser text)).Sorted (fun a b => a ≤ b))
    ∧ (getAllLabels (parseDocument emptyParser text)).Nodup
    ∧ ∀ a, a ∈ getAllLabels (parseDocument emptyParser text)
        ↔ ∃ s ∈ getAllSymbols (parseDocument emptyParser text),
            a ∈ s.labels.getD [] := by
  obtain ⟨hnd, hmem⟩ := labelInv_parseDocument emptyParser text
  refine ⟨List.sorted_insertionSort _ _, ?_, ?_⟩
  · exact (List.perm_insertionSort _ _).nodup_iff.mpr hnd
  · intro a
    rw [getAllLabels, (List.perm_insertionSort _ _).mem_iff]
    exact hmem a


/-! ## C9: version completion -/

theorem mem_collectVersions_aux (l : List LDLSymbol) :
    ∀ (acc : List String) (v : String),
      v ∈ l.foldl (fun acc s =>
        match s.version with
        | some w => dedupAppend acc w
        | none => acc) acc
      ↔ v ∈ acc ∨ ∃ s ∈ l, s.version = some v := by
  induction l with
  | nil => intro acc v; simp
  | cons s rest ih =>
    intro acc v
    rw [List.foldl_cons, ih]
    cases hv : s.version with
    | some w =>
      rw [mem_dedupAppend]
      simp only [List.mem_cons]
      constructor
      · rintro ((hacc | rfl) | hex)
        · exact Or.inl hacc
        · exact Or.inr ⟨s, Or.inl rfl, hv⟩
        · obtain ⟨x, hx, hxv⟩ := hex
          exact Or.inr ⟨x, Or.inr hx, hxv⟩
      · rintro (hacc | ⟨x, (rfl | hx), hxv⟩)
        · exact Or.inl (Or.inl hacc)
        · rw [hv] at hxv
          exact Or.inl (Or.inr (Option.some.inj hxv).symm)
        · exact Or.inr ⟨x, hx, hxv⟩
    | none =>
      simp only [List.mem_cons]
      constructor
      · rintro (hacc | hex)
        · exact Or.inl hacc
        · obtain ⟨x, hx, hxv⟩ := hex
          exact Or.inr ⟨x, Or.inr hx, hxv⟩
      · rintro (hacc | ⟨x, (rfl | hx), hxv⟩)
        · exact Or.inl hacc
        · rw [hv] at hxv
          exact absurd hxv (by simp)
        · exact Or.inr ⟨x, hx, hxv⟩

theorem mem_collectVersions (l : List LDLSymbol) (v : String) :
    v ∈ collectVersions l ↔ ∃ s ∈ l, s.version = some v := by
  rw [collectVersions, mem_collectVersions_aux]
  simp

theorem nodup_collectVersions (l : List LDLSymbol) :
    (collectVersions l).Nodup := by
  rw [collectVersions]
  refine foldl_preserve (fun acc : List String => acc.Nodup) _ ?_ _ _ List.nodup_nil
  intro acc s hacc
  cases hv : s.version with
  | some w =>
    simp only [hv]
    exact nodup_dedupAppend _ _ hacc
  | none =>
    simp only [hv]
    exact hacc

/-- C9 (amended) — Version completion: when the enclosing call's
function name is extracted from the trailing text, the candidates are
the distinct version values already used for that name in the *current
document's* parsed table (in order of first use), followed by — never
interleaved with — the fixed catalog names not already present; each
existing version is offered exactly once, and a value is offered as an
existing version iff some symbol of that name carries it. -/
theorem version_completion_ordering
    (textBeforeCursor : String) (st : ParserState) (fname : String)
    (h : extractVersionFunctionName textBeforeCursor = some fname) :
    (((provideVersionCompletions textBeforeCursor st).take
        (collectVersions (findAllSymbols st fname none none)).length).map
        (fun it => it.label)
      = collectVersions (findAllSymbols st fname none none))
    ∧ (((provideVersionCompletions textBeforeCursor st).drop
        (collectVersions (findAllSymbols st fname none none)).length).map
        (fun it => it.label)
      = commonVersions.filter
          (fun v => ¬ (collectVersions (findAllSymbols st fname none none)).contains v))
    ∧ (collectVersions (findAllSymbols st fname none none)).Nodup
    ∧ (∀ v, v ∈ collectVersions (findAllSymbols st fname none none)
        ↔ ∃ s ∈ findAllSymbols st fname none none, s.version = some v) := by
  have hout : provideVersionCompletions textBeforeCursor st
      = (collectVersions (findAllSymbols st fname none none)).map (fun v =>
          { label := v, detail := fname ++ " 的版本", sortText := none })
        ++ (commonVersions.filter (fun v =>
            ¬ (collectVersions (findAllSymbols st fname none none)).contains v)).map
          (fun v => { label := v, detail := "常用版本名", sortText := some ("z_" ++ v) }) := by
    unfold provideVersionCompletions
    rw [h]
  refine ⟨?_, ?_, nodup_collectVersions _, fun v => mem_collectVersions _ v⟩
  · rw [hout]
    rw [show (collectVersions (findAllSymbols st fname none none)).length
        = ((collectVersions (findAllSymbols st fname none none)).map (fun v =>
          ({ label := v, detail := fname ++ " 的版本", sortText := none } : VersionItem))).length
      from (List.length_map _ _).symm]
    rw [List.take_left, List.map_map]
    have hcomp : ((fun it : VersionItem => it.label) ∘ fun v =>
        ({ label := v, detail := fname ++ " 的版本", sortText := none } : VersionItem))
        = fun v => v := rfl
    rw [hcomp]
    simp
  · rw [hout]
    rw [show (collectVersions (findAllSymbols st fname none none)).length
        = ((collectVersions (findAllSymbols st fname none none)).map (fun v =>
          ({ label := v, detail := fname ++ " 的版本", sortText := none } : VersionItem))).length
      from (List.length_map _ _).symm]
    rw [List.drop_left, List.map_map]
    have hcomp : ((fun it : VersionItem => it.label) ∘ fun v =>
        ({ label := v, detail := "常用版本名", sortText := some ("z_" ++ v) }
          : VersionItem)) = fun v => v := rfl
    rw [hcomp]
    simp

/-- Witness for C9 on the two-overload `SQ3R` document, including the
end-to-end candidate list of the specification's example. -/
theorem version_completion_ordering_witness :
    (extractVersionFunctionName "SQ3R(version: \"" = some "SQ3R")
    ∧ ((provideVersionCompletions "SQ3R(version: \""
        (parseDocument emptyParser sq3rDoc)).map (fun it => it.label)
      = ["classic", "academic", "basic", "advanced", "practical",
         "simplified", "enhanced"])
    ∧ (collectVersions (findAllSymbols (parseDocument emptyParser sq3rDoc)
        "SQ3R" none none) = ["classic", "academic"])
    ∧ ((((provideVersionCompletions "SQ3R(version: \""
          (parseDocument emptyParser sq3rDoc)).take
          (collectVersions (findAllSymbols (parseDocument emptyParser sq3rDoc)
            "SQ3R" none none)).length).map (fun it => it.label)
        = collectVersions (findAllSymbols (parseDocument emptyParser sq3rDoc)
            "SQ3R" none none))
      ∧ (((provideVersionCompletions "SQ3R(version: \""
          (parseDocument emptyParser sq3rDoc)).drop
          (collectVersions (findAllSymbols (parseDocument emptyParser sq3rDoc)
            "SQ3R" none none)).length).map (fun it => it.label)
        = commonVersions.filter
            (fun v => ¬ (collectVersions (findAllSymbols
              (parseDocument emptyParser sq3rDoc) "SQ3R" none none)).contains v))
      ∧ (collectVersions (findAllSymbols (parseDocument emptyParser sq3rDoc)
          "SQ3R" none none)).Nodup
      ∧ (∀ v, v ∈ collectVersions (findAllSymbols
            (parseDocument emptyParser sq3rDoc) "SQ3R" none none)
          ↔ ∃ s ∈ findAllSymbols (parseDocument emptyParser sq3rDoc)
              "SQ3R" none none, s.version = some v)) :=
  ⟨by decide, by decide, by decide,
   version_completion_ordering "SQ3R(version: \""
     (parseDocument emptyParser sq3rDoc) "SQ3R" (by decide)⟩

/-- C9 — counterexample to the workspace-wide claim: a version tag
(`remote`) used for `SQ3R` in another workspace file is not offered when
completing in the current document — the generator consults only the
current document's parsed table, not the whole workspace. -/
theorem version_completion_counterexample :
    (∃ s ∈ getAllSymbols (parseDocument emptyParser versionDocB),
        s.name = "SQ3R" ∧ s.version = some "remote")
    ∧ (∀ it ∈ provideVersionCompletions "SQ3R(version: \""
        (parseDocument emptyParser versionDocA), it.label ≠ "remote") := by
  refine ⟨by decide, by decide⟩

/-! ## C8: ranking order -/

theorem matchScore_le (typed label : String) : matchScore typed label ≤ 100 := by
  unfold matchScore
  split_ifs <;> omega

theorem usageBonus_le (u : Option Usage) (now : Nat) : usageBonus u now ≤ 80 := by
  cases u with
  | none => simp [usageBonus]
  | some u =>
    simp only [usageBonus]
    have := Nat.min_le_right (u.frequency * 10) 50
    split_ifs <;> omega

theorem contextBonus_le (cf : Option String) (d : Option String) :
    contextBonus cf d ≤ 25 := by
  cases cf with
  | none => simp [contextBonus]
  | some f =>
    cases d with
    | none => simp [contextBonus]
    | some d =>
      simp only [contextBonus]
      split_ifs <;> omega

set_option maxRecDepth 10000 in
/-- The value `String(n).padStart(4, '0')` agrees with the four-digit decimal
expansion on the range that `1000 - score` can take. -/
theorem padStart4_eq_digits4 : ∀ n < 1001, 794 < n →
    padStart4 n = String.mk (digits4 n) := by decide

theorem digitOf_lt_iff {a b : Nat} (ha : a ≤ 9) (hb : b ≤ 9) :
    digitOf a < digitOf b ↔ a < b := by
  interval_cases a <;> interval_cases b <;> decide

theorem charListLe_total : ∀ (x y : List Char),
    charListLe x y = true ∨ charListLe y x = true := by
  intro x
  induction x with
  | nil => intro y; left; rfl
  | cons a as ih =>
    intro y
    cases y with
    | nil => right; rfl
    | cons b bs =>
      rcases lt_trichotomy a b with h | h | h
      · left; simp [charListLe, h]
      · subst h
        rcases ih bs with h2 | h2
        · left; simp [charListLe, lt_irrefl, h2]
        · right; simp [charListLe, lt_irrefl, h2]
      · right; simp [charListLe, h]

theorem charListLe_trans : ∀ (x y z : List Char),
    charListLe x y = true → charListLe y z = true → charListLe x z = true := by
  intro x
  induction x with
  | nil => intro y z h1 h2; rfl
  | cons a as ih =>
    intro y z h1 h2
    cases y with
    | nil => simp [charListLe] at h1
    | cons b bs =>
      cases z with
      | nil => simp [charListLe] at h2
      | cons c cs =>
        rcases lt_trichotomy a b with hab | hab | hab
        · rcases lt_trichotomy b c with hbc | hbc | hbc
          · simp [charListLe, lt_trans hab hbc]
          · subst hbc; simp [charListLe, hab]
          · simp [charListLe, lt_asymm hbc, hbc] at h2
        · subst hab
          rcases lt_trichotomy a c with hbc | hbc | hbc
          · simp [charListLe, hbc]
          · subst hbc
            simp only [charListLe, lt_irrefl, if_false] at h1 h2 ⊢
            exact ih bs cs h1 h2
          · simp [charListLe, lt_asymm hbc, hbc] at h2
        · simp [charListLe, lt_asymm hab, hab] at h1

/-- With `a < b ≤ 9999`, the four-digit key of `b` does not sort at or
before the four-digit key of `a`, whatever the suffixes. -/
theorem charListLe_digits4_false {a b : Nat} (ha : a ≤ 9999) (hb : b ≤ 9999)
    (h : a < b) (t₁ t₂ : List Char) :
    charListLe (digits4 b ++ t₂) (digits4 a ++ t₁) = false := by
  have h10 : ∀ x : Nat, x % 10 ≤ 9 := fun x => by omega
  unfold digits4
  simp only [List.cons_append, List.nil_append]
  rcases Nat.lt_trichotomy (a / 1000 % 10) (b / 1000 % 10) with h3 | h3 | h3
  · have hno : ¬ digitOf (b / 1000 % 10) < digitOf (a / 1000 % 10) :=
      fun hk => absurd ((digitOf_lt_iff (h10 _) (h10 _)).mp hk) (by omega)
    have hyes : digitOf (a / 1000 % 10) < digitOf (b / 1000 % 10) :=
      (digitOf_lt_iff (h10 _) (h10 _)).mpr h3
    simp [charListLe, hno, hyes]
  · rw [h3]
    simp only [charListLe, lt_irrefl, if_false]
    rcases Nat.lt_trichotomy (a / 100 % 10) (b / 100 % 10) with h2 | h2 | h2
    · have hno : ¬ digitOf (b / 100 % 10) < digitOf (a / 100 % 10) :=
        fun hk => absurd ((digitOf_lt_iff (h10 _) (h10 _)).mp hk) (by omega)
      have hyes : digitOf (a / 100 % 10) < digitOf (b / 100 % 10) :=
        (digitOf_lt_iff (h10 _) (h10 _)).mpr h2
      simp [charListLe, hno, hyes]
    · rw [h2]
      simp only [charListLe, lt_irrefl, if_false]
      rcases Nat.lt_trichotomy (a / 10 % 10) (b / 10 % 10) with h1 | h1 | h1
      · have hno : ¬ digitOf (b / 10 % 10) < digitOf (a / 10 % 10) :=
          fun hk => absurd ((digitOf_lt_iff (h10 _) (h10 _)).mp hk) (by omega)
        have hyes : digitOf (a / 10 % 10) < digitOf (b / 10 % 10) :=
          (digitOf_lt_iff (h10 _) (h10 _)).mpr h1
        simp [charListLe, hno, hyes]
      · rw [h1]
        simp only [charListLe, lt_irrefl, if_false]
        have h0 : a % 10 < b % 10 := by omega
        have hno : ¬ digitOf (b % 10) < digitOf (a % 10) :=
          fun hk => absurd ((digitOf_lt_iff (h10 _) (h10 _)).mp hk) (by omega)
        have hyes : digitOf (a % 10) < digitOf (b % 10) :=
          (digitOf_lt_iff (h10 _) (h10 _)).mpr h0
        simp [charListLe, hno, hyes]
      · exfalso; omega
    · exfalso; omega
  · exfalso; omega

/-- A strictly larger score yields a sort key that never sorts at or
after the smaller score's key, whatever the labels. -/
theorem mkSortText_le_false {s1 s2 : Nat} (l1 l2 : String)
    (hs1 : s1 ≤ 205) (hs2 : s2 ≤ 205) (h : s2 < s1) :
    charListLe (mkSortText s2 l2).data (mkSortText s1 l1).data = false := by
  have e : ∀ s : Nat, s ≤ 205 → ∀ l : String,
      (mkSortText s l).data = digits4 (1000 - s) ++ ('_' :: l.data) := by
    intro s hs l
    rw [mkSortText, padStart4_eq_digits4 (1000 - s) (by omega) (by omega)]
    rw [String.data_append, String.data_append]
    simp [String.mk]
  rw [e s1 hs1 l1, e s2 hs2 l2]
  exact charListLe_digits4_false (by omega) (by omega) (by omega) _ _

/-- C8 — counterexample: with identical match scores, the candidate
with the strictly higher recorded frequency (6 vs 5, both capped at the
50-point bonus) sorts *after* the other (alphabetical tie-break); and
with identical frequencies, the more recently used candidate also sorts
after (both uses fall in the same one-minute recency bucket). -/
theorem ranking_order_counterexample :
    ((applyIntelligentRanking [{ label := "zzz" }, { label := "aaa" }] ""
        [("zzz", { frequency := 6, lastUsed := 0 }),
         ("aaa", { frequency := 5, lastUsed := 0 })] 0 none).map
        (fun it => it.label) = ["aaa", "zzz"])
    ∧ matchScore (jsLastToken "") "zzz" = matchScore (jsLastToken "") "aaa"
    ∧ (5 : Nat) < 6
    ∧ ((applyIntelligentRanking [{ label := "yyy" }, { label := "bbb" }] ""
        [("yyy", { frequency := 1, lastUsed := 100000 }),
         ("bbb", { frequency := 1, lastUsed := 80000 })] 100000 none).map
        (fun it => it.label) = ["bbb", "yyy"])
    ∧ (80000 : Nat) < 100000 := by
  refine ⟨by decide, by decide, by decide, by decide, by decide⟩

/-- C8 (amended) — Ranking order: among ranked candidates with the same
prefix/substring match score and the same context-relevance bonus, one
whose combined usage bonus — `min(frequency × 10, 50)` plus the bucketed
recency bonus (30/20/10 for use within 1 minute / 5 minutes / 1 hour) —
is strictly larger sorts strictly earlier.  (Higher raw frequency or a
more recent timestamp alone does not suffice: the frequency contribution
is capped and recency is bucketed, and exact ties fall back to the
alphabetical sort-key tie-break.) -/
theorem ranking_order_amended
    (items : List RankItem) (textBeforeCursor : String)
    (usage : List (String × Usage)) (now : Nat)
    (currentFunction : Option String)
    (i j : Fin (applyIntelligentRanking items textBeforeCursor usage now
        currentFunction).length)
    (hm : matchScore (jsLastToken textBeforeCursor)
          ((applyIntelligentRanking items textBeforeCursor usage now
            currentFunction).get i).label
        = matchScore (jsLastToken textBeforeCursor)
          ((applyIntelligentRanking items textBeforeCursor usage now
            currentFunction).get j).label)
    (hc : contextBonus currentFunction
          ((applyIntelligentRanking items textBeforeCursor usage now
            currentFunction).get i).detail
        = contextBonus currentFunction
          ((applyIntelligentRanking items textBeforeCursor usage now
            currentFunction).get j).detail)
    (hu : usageBonus (lookupUsage usage
          ((applyIntelligentRanking items textBeforeCursor usage now
            currentFunction).get j).label) now
        < usageBonus (lookupUsage usage
          ((applyIntelligentRanking items textBeforeCursor usage now
            currentFunction).get i).label) now) :
    (i : Nat) < (j : Nat) := by
  classical
  haveI iTot : IsTotal RankedItem
      (fun a b => charListLe a.sortText.data b.sortText.data = true) :=
    ⟨fun a b => charListLe_total _ _⟩
  haveI iTrans : IsTrans RankedItem
      (fun a b => charListLe a.sortText.data b.sortText.data = true) :=
    ⟨fun a b c h1 h2 => charListLe_trans _ _ _ h1 h2⟩
  have hsorted : (applyIntelligentRanking items textBeforeCursor usage now
      currentFunction).Sorted
        (fun a b => charListLe a.sortText.data b.sortText.data = true) :=
    List.sorted_insertionSort _ _
  have hchar : ∀ x ∈ applyIntelligentRanking items textBeforeCursor usage now
      currentFunction,
      x.sortText = mkSortText
        (matchScore (jsLastToken textBeforeCursor) x.label
          + usageBonus (lookupUsage usage x.label) now
          + contextBonus currentFunction x.detail) x.label := by
    intro x hx
    have hx2 := (List.perm_insertionSort
      (fun a b : RankedItem => charListLe a.sortText.data b.sortText.data = true)
      _).mem_iff.mp hx
    obtain ⟨it, hit, rfl⟩ := List.mem_map.mp hx2
    rfl
  have hscore : ∀ (l : String) (d : Option String),
      matchScore (jsLastToken textBeforeCursor) l
        + usageBonus (lookupUsage usage l) now
        + contextBonus currentFunction d ≤ 205 := by
    intro l d
    have h1 := matchScore_le (jsLastToken textBeforeCursor) l
    have h2 := usageBonus_le (lookupUsage usage l) now
    have h3 := contextBonus_le currentFunction d
    omega
  have hgi : (applyIntelligentRanking items textBeforeCursor usage now
      currentFunction).get i
      ∈ applyIntelligentRanking items textBeforeCursor usage now
        currentFunction := List.get_mem _ _ i.isLt
  have hgj : (applyIntelligentRanking items textBeforeCursor usage now
      currentFunction).get j
      ∈ applyIntelligentRanking items textBeforeCursor usage now
        currentFunction := List.get_mem _ _ j.isLt
  have hfalse : charListLe
      (((applyIntelligentRanking items textBeforeCursor usage now
        currentFunction).get j).sortText).data
      (((applyIntelligentRanking items textBeforeCursor usage now
        currentFunction).get i).sortText).data = false := by
    rw [hchar _ hgi, hchar _ hgj]
    exact mkSortText_le_false _ _ (hscore _ _) (hscore _ _) (by omega)
  rcases Nat.lt_trichotomy (i : Nat) (j : Nat) with hij | hij | hij
  · exact hij
  · exfalso
    have : i = j := Fin.ext hij
    rw [this] at hu
    exact lt_irrefl _ hu
  · exfalso
    have hle := List.Sorted.rel_get_of_lt hsorted (show j < i from hij)
    rw [hle] at hfalse
    simp at hfalse

/-- Witness for the amended C8: with equal match and context scores, a
candidate with usage bonus 40 precedes one with usage bonus 0. -/
theorem ranking_order_amended_witness :
    (matchScore (jsLastToken "")
        ((applyIntelligentRanking [{ label := "b" }, { label := "a" }] ""
          [("b", { frequency := 1, lastUsed := 0 })] 0 none).get
          ⟨0, by decide⟩).label
      = matchScore (jsLastToken "")
        ((applyIntelligentRanking [{ label := "b" }, { label := "a" }] ""
          [("b", { frequency := 1, lastUsed := 0 })] 0 none).get
          ⟨1, by decide⟩).label)
    ∧ (contextBonus none
        ((applyIntelligentRanking [{ label := "b" }, { label := "a" }] ""
          [("b", { frequency := 1, lastUsed := 0 })] 0 none).get
          ⟨0, by decide⟩).detail
      = contextBonus none
        ((applyIntelligentRanking [{ label := "b" }, { label := "a" }] ""
          [("b", { frequency := 1, lastUsed := 0 })] 0 none).get
          ⟨1, by decide⟩).detail)
    ∧ (usageBonus (lookupUsage [("b", { frequency := 1, lastUsed := 0 })]
        ((applyIntelligentRanking [{ label := "b" }, { label := "a" }] ""
          [("b", { frequency := 1, lastUsed := 0 })] 0 none).get
          ⟨1, by decide⟩).label) 0
      < usageBonus (lookupUsage [("b", { frequency := 1, lastUsed := 0 })]
        ((applyIntelligentRanking [{ label := "b" }, { label := "a" }] ""
          [("b", { frequency := 1, lastUsed := 0 })] 0 none).get
          ⟨0, by decide⟩).label) 0)
    ∧ (0 : Nat) < 1 :=
  ⟨by decide, by decide, by decide,
   ranking_order_amended [{ label := "b" }, { label := "a" }] ""
     [("b", { frequency := 1, lastUsed := 0 })] 0 none
     ⟨0, by decide⟩ ⟨1, by decide⟩ (by decide) (by decide) (by decide)⟩

end LDL
